import Mathlib

/-!
Verification of the chord-transposition core of the transpose-music-app
repository (src/main.py, lines 97-158).

Strings are modelled as `List Char`.  The Python functions `normalize_chord`,
`transpose_chord` and `transpose_song` are embedded below, together with an
executable model of the regular expression

    \b([A-G][#b]?(?:m|maj|min|dim|aug|sus|add|[0-9])*)\b

as used by `re.sub` (leftmost match, greedy with backtracking, alternatives
tried in source order).  Python's `str.replace` is modelled by `replace2`
(left-to-right, non-overlapping, two-character patterns).  Character classes
are expressed through code points: `\w` (word constituent) is ASCII
alphanumeric, underscore, or any code point at and above 128 (Python's `re`
is Unicode-aware; all non-ASCII characters appearing in the texts of the
specification are letters, hence word constituents).  Python integer `%`
(sign of divisor) is `Int.emod`, Lean's `%` on `Int`.
-/

set_option maxHeartbeats 1000000

namespace TMA

/-- Word-constituent characters, modelling Python regex `\w`:
ASCII letters, digits, underscore (code 95), and all code points >= 128. -/
def isWordChar (c : Char) : Bool :=
  decide ((65 ≤ c.toNat ∧ c.toNat ≤ 90) ∨ (97 ≤ c.toNat ∧ c.toNat ≤ 122) ∨
    (48 ≤ c.toNat ∧ c.toNat ≤ 57) ∨ c.toNat = 95 ∨ 128 ≤ c.toNat)

/-- Word-constituent test on an optional character; the ends of the subject
string count as non-word positions for `\b`. -/
def isWordOpt : Option Char → Bool
  | some c => isWordChar c
  | none => false

/-- Whitespace, modelling Python `str.strip` / `str.split` on ASCII:
space (32), tab (9), newline (10), vertical tab (11), form feed (12),
carriage return (13). -/
def isSpaceC (c : Char) : Bool :=
  decide (c.toNat = 32 ∨ c.toNat = 9 ∨ c.toNat = 10 ∨ c.toNat = 11 ∨
    c.toNat = 12 ∨ c.toNat = 13)

/-- Root letters `[A-G]` of the chord regex (codes 65-71). -/
def isRootLetter (c : Char) : Bool :=
  decide (65 ≤ c.toNat ∧ c.toNat ≤ 71)

/-- Digits `[0-9]` of the chord regex (codes 48-57). -/
def isDigitC (c : Char) : Bool :=
  decide (48 ≤ c.toNat ∧ c.toNat ≤ 57)

/-- Python `str.replace` for a two-character pattern `[a, b]` replaced by
`[y, z]`: scan left to right, replace non-overlapping occurrences. -/
def replace2 (a b y z : Char) : List Char → List Char
  | [] => []
  | [c] => [c]
  | c₁ :: c₂ :: rest =>
    if c₁ = a ∧ c₂ = b then y :: z :: replace2 a b y z rest
    else c₁ :: replace2 a b y z (c₂ :: rest)

/-- Whether the two-character pattern `[a, b]` occurs (contiguously) in a
string. -/
def hasOcc (a b : Char) : List Char → Bool
  | [] => false
  | [_] => false
  | c₁ :: c₂ :: rest => (decide (c₁ = a ∧ c₂ = b)) || hasOcc a b (c₂ :: rest)

/-- The canonical scale, `NOTES` of src/main.py line 97. -/
def NOTES : List (List Char) :=
  [['C'], ['C', '#'], ['D'], ['D', '#'], ['E'], ['F'], ['F', '#'],
   ['G'], ['G', '#'], ['A'], ['A', '#'], ['B']]

/-- Python function `normalize_chord` of src/main.py lines 100-107: the five flat spellings
are substring-replaced by their sharp equivalents, in dictionary order
Db, Eb, Gb, Ab, Bb. -/
def normalize_chord (chord : List Char) : List Char :=
  replace2 'B' 'b' 'A' '#' (replace2 'A' 'b' 'G' '#' (replace2 'G' 'b' 'F' '#'
    (replace2 'E' 'b' 'D' '#' (replace2 'D' 'b' 'C' '#' chord))))

/-- Position of an element in a list (Python `list.index`; total here,
returning the length when absent — it is only ever applied to members). -/
def idxOf (x : List Char) : List (List Char) → Nat
  | [] => 0
  | y :: rest => if y = x then 0 else idxOf x rest + 1

/-- Index of a pitch spelling in the canonical scale (`NOTES.index`). -/
def noteIdx (r : List Char) : Nat := idxOf r NOTES

/-- The transposition interval of src/main.py line 148:
`(NOTES.index(target) - NOTES.index(original)) % 12`. -/
def interval (a b : List Char) : Int :=
  ((noteIdx b : Int) - (noteIdx a : Int)) % 12

/-- The root-extraction regex `re.match(r'^([A-G][#b]?)', chord)` of
src/main.py line 118: the root and the remaining suffix, or `none` when the
string does not start with a root letter. -/
def splitRoot : List Char → Option (List Char × List Char)
  | [] => none
  | r :: rest =>
    if isRootLetter r then
      match rest with
      | x :: rest2 =>
        if x = '#' ∨ x = 'b' then some ([r, x], rest2) else some ([r], rest)
      | [] => some ([r], [])
    else none

/-- The re-normalization of the extracted root, src/main.py lines 126-127:
`if 'b' in root: root = normalize_chord(root)`. -/
def rootNorm (root : List Char) : List Char :=
  if 'b' ∈ root then normalize_chord root else root

/-- Python function `transpose_chord` of src/main.py lines 109-137. -/
def transpose_chord (chord : List Char) (semitones : Int) : List Char :=
  if chord.all isSpaceC then chord
  else
    match splitRoot (normalize_chord chord) with
    | none => normalize_chord chord
    | some (root, suffix) =>
      if rootNorm root ∈ NOTES then
        NOTES.getD (((noteIdx (rootNorm root) : Int) + semitones) % 12).toNat [] ++ suffix
      else normalize_chord chord

/-- Prefix test on character lists (used for the literal alternatives of the
quality/extension group). -/
def isPre : List Char → List Char → Bool
  | [], _ => true
  | _ :: _, [] => false
  | x :: a, y :: s => if x = y then isPre a s else false

/-- First-success choice, the backtracking order of a regex alternation. -/
def oor : Option Nat → Option Nat → Option Nat
  | some n, _ => some n
  | none, b => b

/-- Backtracking matcher for `(?:m|maj|min|dim|aug|sus|add|[0-9])*\b`
starting after a partial match whose final character has word-ness `lastW`:
returns the number of characters consumed by the star so that the trailing
`\b` holds, preferring longer greedy parses in the engine's order, or `none`.
`fuel` bounds the recursion depth; every iteration consumes at least one
character, so `s.length + 1` is always enough. -/
def starEnd : Nat → Bool → List Char → Option Nat
  | 0, _, _ => none
  | f + 1, lastW, s =>
    oor (if isPre (['m']) s then Option.map (fun k => 1 + k) (starEnd f true (s.drop 1)) else none)
    (oor (if isPre (['m', 'a', 'j']) s then Option.map (fun k => 3 + k) (starEnd f true (s.drop 3)) else none)
    (oor (if isPre (['m', 'i', 'n']) s then Option.map (fun k => 3 + k) (starEnd f true (s.drop 3)) else none)
    (oor (if isPre (['d', 'i', 'm']) s then Option.map (fun k => 3 + k) (starEnd f true (s.drop 3)) else none)
    (oor (if isPre (['a', 'u', 'g']) s then Option.map (fun k => 3 + k) (starEnd f true (s.drop 3)) else none)
    (oor (if isPre (['s', 'u', 's']) s then Option.map (fun k => 3 + k) (starEnd f true (s.drop 3)) else none)
    (oor (if isPre (['a', 'd', 'd']) s then Option.map (fun k => 3 + k) (starEnd f true (s.drop 3)) else none)
    (oor (match s with
          | x :: rest => if isDigitC x then Option.map (fun k => 1 + k) (starEnd f true rest) else none
          | [] => none)
    (if lastW != isWordOpt s.head? then some 0 else none))))))))

/-- Attempt to match the full chord pattern
`\b([A-G][#b]?(?:m|maj|min|dim|aug|sus|add|[0-9])*)\b` at the start of `s`,
where `prevW` is the word-ness of the character immediately before `s` in the
subject.  Returns the length of the match.  The optional accidental is tried
greedily first, falling back to the empty alternative when the remainder of
the pattern cannot succeed. -/
def tryMatch (prevW : Bool) (s : List Char) : Option Nat :=
  match s with
  | [] => none
  | c :: rest =>
    if prevW = false ∧ isRootLetter c then
      match rest with
      | x :: rest2 =>
        if x = '#' ∨ x = 'b' then
          match starEnd (rest2.length + 1) (isWordChar x) rest2 with
          | some k => some (2 + k)
          | none => Option.map (fun k => 1 + k) (starEnd (rest.length + 1) true rest)
        else Option.map (fun k => 1 + k) (starEnd (rest.length + 1) true rest)
      | [] => Option.map (fun k => 1 + k) (starEnd 1 true ([] : List Char))
    else none

/-- The scan of `re.sub`: walk the subject left to right; at each position
attempt a match (leftmost semantics); on success emit the matched token as a
chord span and continue after it, otherwise emit one literal character.
Spans are tagged `true` for chord tokens and `false` for literal characters.
`fuel` bounds the recursion; matches are non-empty, so `s.length` is enough. -/
def scanSpans : Nat → Bool → List Char → List (Bool × List Char)
  | 0, _, _ => []
  | f + 1, prevW, s =>
    match s with
    | [] => []
    | c :: rest =>
      match tryMatch prevW (c :: rest) with
      | some n =>
        (true, (c :: rest).take n) ::
          scanSpans f (isWordOpt ((c :: rest).take n).getLast?) ((c :: rest).drop n)
      | none => (false, [c]) :: scanSpans f (isWordChar c) rest

/-- Reassembly of the scanned spans with every chord span transposed,
modelling the replacement function of src/main.py lines 153-155. -/
def renderT (semitones : Int) (spans : List (Bool × List Char)) : List Char :=
  (spans.map (fun sp => if sp.1 then transpose_chord sp.2 semitones else sp.2)).flatten

/-- The body of `transpose_song` after key validation: `re.sub` of
src/main.py line 157. -/
def transposeBody (semitones : Int) (s : List Char) : List Char :=
  renderT semitones (scanSpans s.length false s)

/-- The constant message of the `ValueError` raised at src/main.py line 145. -/
def invalidMsg : List Char := ("Tonalidad inválida").data

/-- Python function `transpose_song` of src/main.py lines 139-158.  The Python `ValueError`
is modelled as the `Except.error` carrying its (constant) message. -/
def transpose_song (song_text original_key target_key : List Char) :
    Except (List Char) (List Char) :=
  let ok := normalize_chord original_key
  let tk := normalize_chord target_key
  if ok ∈ NOTES ∧ tk ∈ NOTES then
    Except.ok (transposeBody (interval ok tk) song_text)
  else Except.error invalidMsg

instance exceptDecEq {ε α : Type} [DecidableEq ε] [DecidableEq α] :
    DecidableEq (Except ε α)
  | Except.error x, Except.error y =>
    if h : x = y then isTrue (by rw [h]) else isFalse (by intro hh; cases hh; exact h rfl)
  | Except.error _, Except.ok _ => isFalse (by intro hh; cases hh)
  | Except.ok _, Except.error _ => isFalse (by intro hh; cases hh)
  | Except.ok x, Except.ok y =>
    if h : x = y then isTrue (by rw [h]) else isFalse (by intro hh; cases hh; exact h rfl)

/-- The per-key validation of src/main.py lines 141-145, the `normalize`
operation of the Pitch Model in the specification: flat-to-sharp
substitution followed by the membership test against the canonical names. -/
def normalizeKey (s : List Char) : Except (List Char) (List Char) :=
  let n := normalize_chord s
  if n ∈ NOTES then Except.ok n else Except.error invalidMsg

/-- Number of occurrences of a character in a string. -/
def cnt (x : Char) : List Char → Nat
  | [] => 0
  | c :: rest => (if c = x then 1 else 0) + cnt x rest

/-- Number of line breaks. -/
def countNL (s : List Char) : Nat := cnt '\n' s

/-- Number of maximal whitespace-free runs, continued from state `b`
(`b = true` when the previous character was part of a word). -/
def wcount : Bool → List Char → Nat
  | _, [] => 0
  | b, c :: rest =>
    if isSpaceC c then wcount false rest
    else (if b then 0 else 1) + wcount true rest

/-- Number of whitespace-separated words of a string (Python
`len(s.split())`). -/
def wordCount (s : List Char) : Nat := wcount false s

/-- Whether none of the five flat spellings occurs in a string. -/
def noFlats (s : List Char) : Bool :=
  !(hasOcc 'D' 'b' s || hasOcc 'E' 'b' s || hasOcc 'G' 'b' s ||
    hasOcc 'A' 'b' s || hasOcc 'B' 'b' s)

/-- The seven natural root letters. -/
def naturalsL : List Char := ['A', 'B', 'C', 'D', 'E', 'F', 'G']

/-- Characters that may occur in the quality/extension suffix of the chord
regex: the letters of `m`, `maj`, `min`, `dim`, `aug`, `sus`, `add`, and the
digits. -/
def isAtomChar (c : Char) : Bool :=
  decide (c ∈ (['m', 'a', 'j', 'i', 'n', 'd', 'u', 'g', 's'] : List Char)) || isDigitC c

/-- The root shift of src/main.py lines 133-135 applied to a single-letter
root: the canonical name at `(index + semitones) mod 12`. -/
def shiftC (st : Int) (c : Char) : List Char :=
  NOTES.getD (((noteIdx [c] : Int) + st) % 12).toNat []

/-- A chord token with a natural (single-letter) root whose image under a
shift of `st` semitones is again natural. -/
def natRoot (st : Int) (tok : List Char) : Bool :=
  match tok with
  | [] => false
  | c :: rest =>
    decide (c ∈ naturalsL) && rest.all isAtomChar && decide ((shiftC st c).length = 1)

/-- The seventeen valid pitch spellings: twelve canonical names and five
flat aliases. -/
def valid17 : List (List Char) :=
  NOTES ++ [['D', 'b'], ['E', 'b'], ['G', 'b'], ['A', 'b'], ['B', 'b']]

/-! ### Lemmas about `replace2`, `hasOcc` and `normalize_chord` -/

theorem hasOcc_cons (a b x : Char) (l : List Char) :
    hasOcc a b (x :: l) = ((decide (x = a ∧ l.head? = some b)) || hasOcc a b l) := by
  cases l with
  | nil => simp [hasOcc]
  | cons z l' => simp [hasOcc]

theorem hasOcc_tail {a b x : Char} {l : List Char} (h : hasOcc a b (x :: l) = false) :
    hasOcc a b l = false := by
  rw [hasOcc_cons] at h
  exact (Bool.or_eq_false_iff.mp h).2

theorem replace2_id (a b y z : Char) (s : List Char) (h : hasOcc a b s = false) :
    replace2 a b y z s = s := by
  induction s using replace2.induct a b y z with
  | case1 => rfl
  | case2 c => rfl
  | case3 c₁ c₂ rest hp ih =>
    exfalso
    rw [show (c₁ :: c₂ :: rest) = (c₁ :: (c₂ :: rest)) from rfl, hasOcc_cons] at h
    simp [hp.1, hp.2] at h
  | case4 c₁ c₂ rest hp ih =>
    rw [replace2, if_neg hp, ih (hasOcc_tail h)]

theorem replace2_head_cases (a b y z x : Char) (l : List Char) :
    (replace2 a b y z (x :: l)).head? = some y ∨
    (replace2 a b y z (x :: l)).head? = some x := by
  cases l with
  | nil => right; rfl
  | cons c l' =>
    rw [replace2]
    split
    · left; rfl
    · right; rfl

theorem hasOcc_replace2_false {a y a' : Char} (ha' : a' ≠ '#') (ha'b : a' ≠ 'b')
    (hy : y ≠ 'b') :
    ∀ s : List Char, (a' = a ∨ hasOcc a' 'b' s = false) →
      hasOcc a' 'b' (replace2 a 'b' y '#' s) = false := by
  intro s
  induction s using replace2.induct a 'b' y '#' with
  | case1 => intro _; rfl
  | case2 c => intro _; rfl
  | case3 c₁ c₂ rest hp ih =>
    intro hpre
    rw [replace2, if_pos hp]
    rw [hasOcc_cons]
    have h1 : decide (y = a' ∧ (('#' :: replace2 a 'b' y '#' rest).head? = some 'b')) = false := by
      simp
    rw [h1, Bool.false_or, hasOcc_cons]
    have h2 : decide ('#' = a' ∧ ((replace2 a 'b' y '#' rest).head? = some 'b')) = false := by
      simp; intro hc; exact absurd hc.symm ha'
    rw [h2, Bool.false_or]
    refine ih ?_
    rcases hpre with haa | hocc
    · exact Or.inl haa
    · exact Or.inr (hasOcc_tail (hasOcc_tail hocc))
  | case4 c₁ c₂ rest hp ih =>
    intro hpre
    rw [replace2, if_neg hp, hasOcc_cons]
    have htail : hasOcc a' 'b' (replace2 a 'b' y '#' (c₂ :: rest)) = false := by
      refine ih ?_
      rcases hpre with haa | hocc
      · exact Or.inl haa
      · exact Or.inr (hasOcc_tail hocc)
    rw [htail, Bool.or_false]
    rcases replace2_head_cases a 'b' y '#' c₂ rest with hh | hh
    · rw [hh]; simp; intro _ hyb; exact absurd hyb hy
    · rw [hh]
      simp only [decide_eq_false_iff_not]
      rintro ⟨hc₁, hc₂⟩
      rw [Option.some_inj] at hc₂
      rcases hpre with haa | hocc
      · exact hp ⟨hc₁.trans haa, hc₂⟩
      · rw [hasOcc_cons] at hocc
        simp [hc₁, hc₂] at hocc

theorem hasOcc_normalize_false (a' : Char)
    (ha : a' ∈ (['D', 'E', 'G', 'A', 'B'] : List Char)) (s : List Char) :
    hasOcc a' 'b' (normalize_chord s) = false := by
  simp only [List.mem_cons, List.not_mem_nil, or_false] at ha
  have hne : a' ≠ '#' ∧ a' ≠ 'b' := by
    rcases ha with h | h | h | h | h <;> (subst h; exact ⟨by decide, by decide⟩)
  unfold normalize_chord
  rcases ha with h | h | h | h | h
  · subst h
    refine hasOcc_replace2_false hne.1 hne.2 (by decide) _ (Or.inr ?_)
    refine hasOcc_replace2_false hne.1 hne.2 (by decide) _ (Or.inr ?_)
    refine hasOcc_replace2_false hne.1 hne.2 (by decide) _ (Or.inr ?_)
    refine hasOcc_replace2_false hne.1 hne.2 (by decide) _ (Or.inr ?_)
    exact hasOcc_replace2_false hne.1 hne.2 (by decide) _ (Or.inl rfl)
  · subst h
    refine hasOcc_replace2_false hne.1 hne.2 (by decide) _ (Or.inr ?_)
    refine hasOcc_replace2_false hne.1 hne.2 (by decide) _ (Or.inr ?_)
    refine hasOcc_replace2_false hne.1 hne.2 (by decide) _ (Or.inr ?_)
    exact hasOcc_replace2_false hne.1 hne.2 (by decide) _ (Or.inl rfl)
  · subst h
    refine hasOcc_replace2_false hne.1 hne.2 (by decide) _ (Or.inr ?_)
    refine hasOcc_replace2_false hne.1 hne.2 (by decide) _ (Or.inr ?_)
    exact hasOcc_replace2_false hne.1 hne.2 (by decide) _ (Or.inl rfl)
  · subst h
    refine hasOcc_replace2_false hne.1 hne.2 (by decide) _ (Or.inr ?_)
    exact hasOcc_replace2_false hne.1 hne.2 (by decide) _ (Or.inl rfl)
  · subst h
    exact hasOcc_replace2_false hne.1 hne.2 (by decide) _ (Or.inl rfl)

theorem normalize_chord_id {s : List Char} (h : noFlats s = true) :
    normalize_chord s = s := by
  unfold noFlats at h
  simp only [Bool.not_eq_true', Bool.or_eq_false_iff] at h
  obtain ⟨⟨⟨⟨hD, hE⟩, hG⟩, hA⟩, hB⟩ := h
  unfold normalize_chord
  rw [replace2_id _ _ _ _ _ hD, replace2_id _ _ _ _ _ hE, replace2_id _ _ _ _ _ hG,
    replace2_id _ _ _ _ _ hA, replace2_id _ _ _ _ _ hB]

theorem noFlats_normalize (s : List Char) : noFlats (normalize_chord s) = true := by
  unfold noFlats
  have hD := hasOcc_normalize_false 'D' (by decide) s
  have hE := hasOcc_normalize_false 'E' (by decide) s
  have hG := hasOcc_normalize_false 'G' (by decide) s
  have hA := hasOcc_normalize_false 'A' (by decide) s
  have hB := hasOcc_normalize_false 'B' (by decide) s
  simp [hD, hE, hG, hA, hB]

/-! ### Branch equations for `transpose_chord` -/

theorem transpose_chord_ws {chord : List Char} (st : Int)
    (hall : chord.all isSpaceC = true) : transpose_chord chord st = chord := by
  unfold transpose_chord
  rw [if_pos hall]

theorem transpose_chord_none {chord : List Char} (st : Int)
    (hall : chord.all isSpaceC = false)
    (hsp : splitRoot (normalize_chord chord) = none) :
    transpose_chord chord st = normalize_chord chord := by
  unfold transpose_chord
  rw [hall]
  simp only [Bool.false_eq_true, if_false]
  rw [hsp]

theorem transpose_chord_some {chord root suffix : List Char} (st : Int)
    (hall : chord.all isSpaceC = false)
    (hsp : splitRoot (normalize_chord chord) = some (root, suffix)) :
    transpose_chord chord st =
      if rootNorm root ∈ NOTES then
        NOTES.getD (((noteIdx (rootNorm root) : Int) + st) % 12).toNat [] ++ suffix
      else normalize_chord chord := by
  unfold transpose_chord
  rw [hall]
  simp only [Bool.false_eq_true, if_false]
  rw [hsp]

/-! ### Character-class and token-shape lemmas for the scanner -/

/-- Characters that can occur inside a matched chord token. -/
def isTokC (c : Char) : Bool :=
  isRootLetter c || decide (c = '#') || decide (c = 'b') || isAtomChar c

theorem isAtomChar_isTokC {c : Char} (h : isAtomChar c = true) : isTokC c = true := by
  simp [isTokC, h]

theorem isAtomChar_nonws {c : Char} (h : isAtomChar c = true) : isSpaceC c = false := by
  unfold isAtomChar isDigitC at h
  unfold isSpaceC
  simp only [Bool.or_eq_true, decide_eq_true_eq, List.mem_cons, List.not_mem_nil,
    or_false] at h
  simp only [decide_eq_false_iff_not]
  rcases h with h | h
  · rcases h with h | h | h | h | h | h | h | h | h <;> (subst h; decide)
  · omega

theorem isTokC_nonws {c : Char} (h : isTokC c = true) : isSpaceC c = false := by
  unfold isTokC at h
  simp only [Bool.or_eq_true, decide_eq_true_eq] at h
  rcases h with ((h | h) | h) | h
  · unfold isRootLetter at h
    unfold isSpaceC
    simp only [decide_eq_true_eq] at h
    simp only [decide_eq_false_iff_not]
    omega
  · subst h; decide
  · subst h; decide
  · exact isAtomChar_nonws h

theorem isPre_eq {a : List Char} : ∀ {s : List Char}, isPre a s = true →
    s = a ++ s.drop a.length := by
  induction a with
  | nil => intro s _; simp
  | cons x a' ih =>
    intro s h
    cases s with
    | nil => simp [isPre] at h
    | cons y s' =>
      rw [isPre] at h
      split at h
      · rename_i hx
        subst hx
        simpa using ih h
      · cases h

theorem oor_some {x y : Option Nat} {k : Nat} (h : oor x y = some k) :
    x = some k ∨ (x = none ∧ y = some k) := by
  cases x with
  | some n => left; exact h
  | none => right; exact ⟨rfl, h⟩

theorem take_spec_of_pre {a s : List Char} (hpre : isPre a s = true)
    (ha : ∀ c ∈ a, isAtomChar c = true) {k' : Nat}
    (hk1 : k' ≤ (s.drop a.length).length)
    (hk2 : ∀ c ∈ (s.drop a.length).take k', isAtomChar c = true) :
    a.length + k' ≤ s.length ∧ ∀ c ∈ s.take (a.length + k'), isAtomChar c = true := by
  have hs := isPre_eq hpre
  constructor
  · conv_rhs => rw [hs]
    simp only [List.length_append]
    omega
  · intro c hc
    rw [List.take_add] at hc
    rcases List.mem_append.mp hc with hc | hc
    · refine ha c ?_
      have : s.take a.length = a := by
        conv_lhs => rw [hs]
        exact List.take_left a _
      rw [this] at hc
      exact hc
    · exact hk2 c hc

theorem starEnd_spec : ∀ (f : Nat) (w : Bool) (s : List Char) (k : Nat),
    starEnd f w s = some k →
    k ≤ s.length ∧ ∀ c ∈ s.take k, isAtomChar c = true := by
  intro f
  induction f with
  | zero => intro w s k h; cases h
  | succ f ih =>
    intro w s k h
    simp only [starEnd] at h
    have hbranch : ∀ (a : List Char), (∀ c ∈ a, isAtomChar c = true) →
        (if isPre a s then Option.map (fun k => a.length + k) (starEnd f true (s.drop a.length)) else none) = some k →
        k ≤ s.length ∧ ∀ c ∈ s.take k, isAtomChar c = true := by
      intro a haC hif
      split at hif
      · rename_i hpre
        rcases Option.map_eq_some'.mp hif with ⟨k', hk', rfl⟩
        obtain ⟨h1, h2⟩ := ih true (s.drop a.length) k' hk'
        exact take_spec_of_pre hpre haC h1 h2
      · cases hif
    rcases oor_some h with h | ⟨_, h⟩
    · exact hbranch (['m']) (by decide) h
    rcases oor_some h with h | ⟨_, h⟩
    · exact hbranch (['m', 'a', 'j']) (by decide) h
    rcases oor_some h with h | ⟨_, h⟩
    · exact hbranch (['m', 'i', 'n']) (by decide) h
    rcases oor_some h with h | ⟨_, h⟩
    · exact hbranch (['d', 'i', 'm']) (by decide) h
    rcases oor_some h with h | ⟨_, h⟩
    · exact hbranch (['a', 'u', 'g']) (by decide) h
    rcases oor_some h with h | ⟨_, h⟩
    · exact hbranch (['s', 'u', 's']) (by decide) h
    rcases oor_some h with h | ⟨_, h⟩
    · exact hbranch (['a', 'd', 'd']) (by decide) h
    rcases oor_some h with h | ⟨_, h⟩
    · -- digit branch
      cases s with
      | nil => cases h
      | cons x rest =>
        have h' : (if isDigitC x then Option.map (fun k => 1 + k) (starEnd f true rest)
            else none) = some k := h
        clear h
        split at h'
        · rename_i hdig
          rcases Option.map_eq_some'.mp h' with ⟨k', hk', rfl⟩
          obtain ⟨h1, h2⟩ := ih true rest k' hk'
          rw [Nat.add_comm 1 k']
          constructor
          · simp only [List.length_cons]; omega
          · intro c hc
            rw [List.take_succ_cons] at hc
            rcases List.mem_cons.mp hc with hc | hc
            · subst hc; simp [isAtomChar, hdig]
            · exact h2 c hc
        · cases h'
    · -- boundary branch
      split at h
      · injection h with h0
        subst h0
        exact ⟨Nat.zero_le _, by intro c hc; simp at hc⟩
      · cases h

theorem tryMatch_spec : ∀ (w : Bool) (s : List Char) (n : Nat),
    tryMatch w s = some n →
    1 ≤ n ∧ n ≤ s.length ∧ ∀ c ∈ s.take n, isTokC c = true := by
  intro w s n h
  cases s with
  | nil => cases h
  | cons c rest =>
    simp only [tryMatch] at h
    split at h
    · rename_i hroot
      have hrootC : isTokC c = true := by
        simp [isTokC, hroot.2]
      cases rest with
      | nil =>
        have h' : Option.map (fun k => 1 + k) (starEnd 1 true ([] : List Char)) = some n := h
        rcases Option.map_eq_some'.mp h' with ⟨k', hk', rfl⟩
        obtain ⟨h1, h2⟩ := starEnd_spec 1 true ([] : List Char) k' hk'
        simp only [List.length_nil, Nat.le_zero] at h1
        subst h1
        refine ⟨by omega, by simp, ?_⟩
        intro cc hcc
        simp only [List.take_succ_cons, List.take_nil] at hcc
        rcases List.mem_cons.mp hcc with hcc | hcc
        · subst hcc; exact hrootC
        · cases hcc
      | cons x rest2 =>
        have h' : (if x = '#' ∨ x = 'b' then
              match starEnd (rest2.length + 1) (isWordChar x) rest2 with
              | some k => some (2 + k)
              | none => Option.map (fun k => 1 + k)
                  (starEnd ((x :: rest2).length + 1) true (x :: rest2))
            else Option.map (fun k => 1 + k)
              (starEnd ((x :: rest2).length + 1) true (x :: rest2))) = some n := h
        clear h
        have hfall : Option.map (fun k => 1 + k)
            (starEnd ((x :: rest2).length + 1) true (x :: rest2)) = some n →
            1 ≤ n ∧ n ≤ (c :: x :: rest2).length ∧
              ∀ cc ∈ (c :: x :: rest2).take n, isTokC cc = true := by
          intro hh
          rcases Option.map_eq_some'.mp hh with ⟨k', hk', rfl⟩
          obtain ⟨h1, h2⟩ := starEnd_spec _ _ _ _ hk'
          rw [Nat.add_comm 1 k']
          refine ⟨by omega, ?_, ?_⟩
          · simp only [List.length_cons] at h1 ⊢; omega
          · intro cc hcc
            rw [List.take_succ_cons] at hcc
            rcases List.mem_cons.mp hcc with hcc | hcc
            · subst hcc; exact hrootC
            · exact isAtomChar_isTokC (h2 cc hcc)
        split at h'
        · rename_i hacc
          have haccC : isTokC x = true := by
            rcases hacc with hx | hx <;> (subst hx; decide)
          revert h'
          cases hse : starEnd (rest2.length + 1) (isWordChar x) rest2 with
          | some k =>
            intro h'
            injection h' with hn
            subst hn
            obtain ⟨h1, h2⟩ := starEnd_spec _ _ _ _ hse
            refine ⟨by omega, ?_, ?_⟩
            · simp only [List.length_cons]; omega
            · intro cc hcc
              rw [show (2 : Nat) + k = k + 1 + 1 by omega] at hcc
              simp only [List.take_succ_cons] at hcc
              rcases List.mem_cons.mp hcc with hcc | hcc
              · subst hcc; exact hrootC
              rcases List.mem_cons.mp hcc with hcc | hcc
              · subst hcc; exact haccC
              · exact isAtomChar_isTokC (h2 cc hcc)
          | none =>
            intro h'
            exact hfall h'
        · exact hfall h'
    · cases h

/-! ### Structure of the scan: reassembly, non-whitespace replacements,
counts of line breaks and words -/

theorem scanSpans_flatten : ∀ (f : Nat) (w : Bool) (s : List Char), s.length ≤ f →
    ((scanSpans f w s).map Prod.snd).flatten = s := by
  intro f
  induction f with
  | zero =>
    intro w s h
    have : s = [] := List.eq_nil_of_length_eq_zero (Nat.le_zero.mp h)
    subst this
    rfl
  | succ f ih =>
    intro w s hlen
    cases s with
    | nil => rfl
    | cons c rest =>
      simp only [scanSpans]
      cases htm : tryMatch w (c :: rest) with
      | some n =>
        obtain ⟨hn1, hn2, _⟩ := tryMatch_spec _ _ _ htm
        simp only [List.map_cons, List.flatten_cons]
        rw [ih _ _ (by simp only [List.length_drop, List.length_cons] at hlen ⊢; omega)]
        exact List.take_append_drop n _
      | none =>
        simp only [List.map_cons, List.flatten_cons, List.singleton_append]
        rw [ih _ _ (by simp only [List.length_cons] at hlen; omega)]

theorem scanSpans_token_spec : ∀ (f : Nat) (w : Bool) (s : List Char)
    (sp : Bool × List Char), sp ∈ scanSpans f w s → sp.1 = true →
    sp.2 ≠ [] ∧ ∀ c ∈ sp.2, isTokC c = true := by
  intro f
  induction f with
  | zero => intro w s sp h; cases h
  | succ f ih =>
    intro w s sp hmem htag
    cases s with
    | nil => cases hmem
    | cons c rest =>
      simp only [scanSpans] at hmem
      revert hmem
      cases htm : tryMatch w (c :: rest) with
      | some n =>
        intro hmem
        obtain ⟨hn1, hn2, hn3⟩ := tryMatch_spec _ _ _ htm
        rcases List.mem_cons.mp hmem with hmem | hmem
        · subst hmem
          constructor
          · cases n with
            | zero => omega
            | succ m => simp [List.take_succ_cons]
          · exact hn3
        · exact ih _ _ _ hmem htag
      | none =>
        intro hmem
        rcases List.mem_cons.mp hmem with hmem | hmem
        · subst hmem; cases htag
        · exact ih _ _ _ hmem htag

theorem notes_getD_spec : ∀ k : Nat, k < 12 →
    NOTES.getD k [] ≠ [] ∧ ∀ c ∈ NOTES.getD k [], isSpaceC c = false := by decide

theorem emod12_nonneg (x : Int) : 0 ≤ x % 12 := Int.emod_nonneg x (by decide)

theorem emod12_lt (x : Int) : x % 12 < 12 := Int.emod_lt_of_pos x (by decide)

theorem emod12_toNat_lt (x : Int) : (x % 12).toNat < 12 := by
  have h1 := emod12_nonneg x
  have h2 := emod12_lt x
  omega

theorem replace2_length (a b y z : Char) (s : List Char) :
    (replace2 a b y z s).length = s.length := by
  induction s using replace2.induct a b y z with
  | case1 => rfl
  | case2 c => rfl
  | case3 c₁ c₂ rest h ih => simp [replace2, h, ih]
  | case4 c₁ c₂ rest h ih => simp only [replace2, if_neg h, List.length_cons, ih]

theorem normalize_length (s : List Char) : (normalize_chord s).length = s.length := by
  unfold normalize_chord
  rw [replace2_length, replace2_length, replace2_length, replace2_length, replace2_length]

theorem replace2_nonws {a b y z : Char} (hy : isSpaceC y = false) (hz : isSpaceC z = false) :
    ∀ s : List Char, (∀ c ∈ s, isSpaceC c = false) →
    ∀ c ∈ replace2 a b y z s, isSpaceC c = false := by
  intro s
  induction s using replace2.induct a b y z with
  | case1 => intro _ c hc; cases hc
  | case2 c => intro h c' hc'; exact h c' hc'
  | case3 c₁ c₂ rest hp ih =>
    intro h c' hc'
    rw [replace2, if_pos hp] at hc'
    rcases List.mem_cons.mp hc' with hc' | hc'
    · subst hc'; exact hy
    rcases List.mem_cons.mp hc' with hc' | hc'
    · subst hc'; exact hz
    · exact ih (fun c hc => h c (List.mem_cons_of_mem _ (List.mem_cons_of_mem _ hc))) c' hc'
  | case4 c₁ c₂ rest hp ih =>
    intro h c' hc'
    rw [replace2, if_neg hp] at hc'
    rcases List.mem_cons.mp hc' with hc' | hc'
    · subst hc'; exact h c' (List.mem_cons_self _ _)
    · exact ih (fun c hc => h c (List.mem_cons_of_mem _ hc)) c' hc'

theorem normalize_nonws {s : List Char} (h : ∀ c ∈ s, isSpaceC c = false) :
    ∀ c ∈ normalize_chord s, isSpaceC c = false := by
  unfold normalize_chord
  refine replace2_nonws (by decide) (by decide) _ ?_
  refine replace2_nonws (by decide) (by decide) _ ?_
  refine replace2_nonws (by decide) (by decide) _ ?_
  refine replace2_nonws (by decide) (by decide) _ ?_
  exact replace2_nonws (by decide) (by decide) _ h

theorem splitRoot_eq : ∀ {l root suffix : List Char},
    splitRoot l = some (root, suffix) → l = root ++ suffix := by
  intro l root suffix h
  cases l with
  | nil => cases h
  | cons r rest =>
    cases rest with
    | nil =>
      simp only [splitRoot] at h
      split at h
      · injection h with h'
        injection h' with h1 h2
        subst h1; subst h2; rfl
      · cases h
    | cons x rest2 =>
      simp only [splitRoot] at h
      split at h
      · split at h
        · injection h with h'
          injection h' with h1 h2
          subst h1; subst h2; rfl
        · injection h with h'
          injection h' with h1 h2
          subst h1; subst h2; rfl
      · cases h

theorem transpose_chord_nonws {chord : List Char} {st : Int} (hne : chord ≠ [])
    (hnw : ∀ c ∈ chord, isSpaceC c = false) :
    transpose_chord chord st ≠ [] ∧ ∀ c ∈ transpose_chord chord st, isSpaceC c = false := by
  have hnorm_ne : normalize_chord chord ≠ [] := by
    intro hcon
    have := normalize_length chord
    rw [hcon] at this
    exact hne (List.eq_nil_of_length_eq_zero this.symm)
  have hnorm_nw := normalize_nonws hnw
  have hall : chord.all isSpaceC = false := by
    cases chord with
    | nil => exact absurd rfl hne
    | cons hd tl =>
      simp only [List.all_cons, hnw hd (List.mem_cons_self _ _), Bool.false_and]
  cases hsp : splitRoot (normalize_chord chord) with
  | none =>
    rw [transpose_chord_none st hall hsp]
    exact ⟨hnorm_ne, hnorm_nw⟩
  | some rs =>
    obtain ⟨root, suffix⟩ := rs
    rw [transpose_chord_some st hall hsp]
    have hsfx : ∀ c ∈ suffix, isSpaceC c = false := by
      intro c hc
      refine hnorm_nw c ?_
      rw [splitRoot_eq hsp]
      exact List.mem_append_right _ hc
    have hkey : ∀ j : Int, NOTES.getD (j % 12).toNat [] ++ suffix ≠ [] ∧
        ∀ c ∈ NOTES.getD (j % 12).toNat [] ++ suffix, isSpaceC c = false := by
      intro j
      constructor
      · intro hcon
        rcases List.append_eq_nil.mp hcon with ⟨h1, _⟩
        exact (notes_getD_spec _ (emod12_toNat_lt _)).1 h1
      · intro c hc
        rcases List.mem_append.mp hc with hc | hc
        · exact (notes_getD_spec _ (emod12_toNat_lt _)).2 c hc
        · exact hsfx c hc
    by_cases hN : rootNorm root ∈ NOTES
    · rw [if_pos hN]; exact hkey _
    · rw [if_neg hN]; exact ⟨hnorm_ne, hnorm_nw⟩

theorem cnt_append (x : Char) (l r : List Char) :
    cnt x (l ++ r) = cnt x l + cnt x r := by
  induction l with
  | nil => simp [cnt]
  | cons c l' ih => simp [cnt, ih]; omega

theorem cnt_zero_of_nonws {l : List Char} (h : ∀ c ∈ l, isSpaceC c = false) :
    cnt '\n' l = 0 := by
  induction l with
  | nil => rfl
  | cons c l' ih =>
    rw [cnt]
    have hc : c ≠ '\n' := by
      intro hcon
      subst hcon
      have := h '\n' (List.mem_cons_self _ _)
      simp [isSpaceC] at this
    rw [if_neg hc, ih (fun c hc => h c (List.mem_cons_of_mem _ hc))]

theorem wcount_append_block : ∀ (xs : List Char), xs ≠ [] →
    (∀ c ∈ xs, isSpaceC c = false) → ∀ (b : Bool) (ys : List Char),
    wcount b (xs ++ ys) = (if b then 0 else 1) + wcount true ys := by
  intro xs
  induction xs with
  | nil => intro h; exact absurd rfl h
  | cons x xs' ih =>
    intro _ hnw b ys
    rw [List.cons_append, wcount, if_neg (by simp [hnw x (List.mem_cons_self _ _)])]
    cases xs' with
    | nil => simp
    | cons z zs =>
      rw [ih (by simp) (fun c hc => hnw c (List.mem_cons_of_mem _ hc)) true ys]
      simp

theorem renderT_cons_tok (st : Int) (tok : List Char) (l : List (Bool × List Char)) :
    renderT st ((true, tok) :: l) = transpose_chord tok st ++ renderT st l := by
  simp [renderT]

theorem renderT_cons_lit (st : Int) (cs : List Char) (l : List (Bool × List Char)) :
    renderT st ((false, cs) :: l) = cs ++ renderT st l := by
  simp [renderT]

theorem renderT_counts : ∀ (f : Nat) (w : Bool) (s : List Char) (st : Int),
    s.length ≤ f →
    cnt '\n' (renderT st (scanSpans f w s)) = cnt '\n' s ∧
    ∀ b, wcount b (renderT st (scanSpans f w s)) = wcount b s := by
  intro f
  induction f with
  | zero =>
    intro w s st h
    have : s = [] := List.eq_nil_of_length_eq_zero (Nat.le_zero.mp h)
    subst this
    exact ⟨rfl, fun b => rfl⟩
  | succ f ih =>
    intro w s st hlen
    cases s with
    | nil => exact ⟨rfl, fun b => rfl⟩
    | cons c rest =>
      simp only [scanSpans]
      cases htm : tryMatch w (c :: rest) with
      | some n =>
        obtain ⟨hn1, hn2, hn3⟩ := tryMatch_spec _ _ _ htm
        have htake_ne : (c :: rest).take n ≠ [] := by
          cases n with
          | zero => omega
          | succ m => simp [List.take_succ_cons]
        have htake_nw : ∀ cc ∈ (c :: rest).take n, isSpaceC cc = false :=
          fun cc hcc => isTokC_nonws (hn3 cc hcc)
        obtain ⟨hr_ne, hr_nw⟩ := transpose_chord_nonws htake_ne htake_nw
        have hdrop_len : ((c :: rest).drop n).length ≤ f := by
          simp only [List.length_drop, List.length_cons] at hlen ⊢
          omega
        obtain ⟨ihNL, ihW⟩ := ih (isWordOpt ((c :: rest).take n).getLast?)
          ((c :: rest).drop n) st hdrop_len
        rw [renderT_cons_tok]
        constructor
        · rw [cnt_append, cnt_zero_of_nonws hr_nw, ihNL]
          conv_rhs => rw [← List.take_append_drop n (c :: rest)]
          rw [cnt_append, cnt_zero_of_nonws htake_nw]
        · intro b
          rw [wcount_append_block _ hr_ne hr_nw b, ihW true]
          conv_rhs => rw [← List.take_append_drop n (c :: rest)]
          rw [wcount_append_block _ htake_ne htake_nw b]
      | none =>
        obtain ⟨ihNL, ihW⟩ := ih (isWordChar c) rest st
          (by simp only [List.length_cons] at hlen; omega)
        rw [renderT_cons_lit, List.singleton_append]
        constructor
        · rw [cnt, cnt, ihNL]
        · intro b
          rw [wcount, wcount]
          split
          · exact ihW false
          · rw [ihW true]

/-! ### Index lemmas and the zero-interval behaviour of `transpose_chord` -/

theorem idxOf_lt_length : ∀ {l : List (List Char)} {x : List Char},
    x ∈ l → idxOf x l < l.length := by
  intro l
  induction l with
  | nil => intro x h; cases h
  | cons y rest ih =>
    intro x h
    rw [idxOf]
    split
    · simp
    · rename_i hne
      have hx : x ∈ rest := by
        rcases List.mem_cons.mp h with h | h
        · exact absurd h.symm hne
        · exact h
      simpa [List.length_cons] using Nat.succ_lt_succ (ih hx)

theorem getD_idxOf : ∀ {l : List (List Char)} {x : List Char},
    x ∈ l → l.getD (idxOf x l) [] = x := by
  intro l
  induction l with
  | nil => intro x h; cases h
  | cons y rest ih =>
    intro x h
    rw [idxOf]
    split
    · rename_i he
      simpa using he
    · rename_i hne
      have hx : x ∈ rest := by
        rcases List.mem_cons.mp h with h | h
        · exact absurd h.symm hne
        · exact h
      simpa [List.getD_cons_succ] using ih hx

theorem noteIdx_lt {root : List Char} (h : root ∈ NOTES) : noteIdx root < 12 := by
  have h1 := idxOf_lt_length h
  have h2 : NOTES.length = 12 := by rfl
  rw [h2] at h1
  exact h1

theorem getD_noteIdx {root : List Char} (h : root ∈ NOTES) :
    NOTES.getD (noteIdx root) [] = root := getD_idxOf h

theorem getD_zero_shift {root : List Char} (hN : root ∈ NOTES) :
    NOTES.getD (((noteIdx root : Int) + 0) % 12).toNat [] = root := by
  have hlt : noteIdx root < 12 := noteIdx_lt hN
  have h2 : (((noteIdx root : Int) + 0) % 12).toNat = noteIdx root := by omega
  rw [h2, getD_noteIdx hN]

theorem hasOcc_no_b {a b : Char} : ∀ {s : List Char}, (∀ x ∈ s, x ≠ b) →
    hasOcc a b s = false := by
  intro s
  induction s with
  | nil => intro _; rfl
  | cons c rest ih =>
    intro h
    rw [hasOcc_cons]
    have h1 : decide (c = a ∧ rest.head? = some b) = false := by
      simp only [decide_eq_false_iff_not]
      rintro ⟨_, hh⟩
      cases rest with
      | nil => cases hh
      | cons z zs =>
        injection hh with hz
        exact h z (List.mem_cons_of_mem _ (List.mem_cons_self _ _)) hz
    rw [h1, Bool.false_or]
    exact ih (fun x hx => h x (List.mem_cons_of_mem _ hx))

theorem noFlats_of_no_b {s : List Char} (h : ∀ x ∈ s, x ≠ 'b') :
    noFlats s = true := by
  unfold noFlats
  rw [hasOcc_no_b h, hasOcc_no_b h, hasOcc_no_b h, hasOcc_no_b h, hasOcc_no_b h]
  rfl

theorem hasOcc_append_left {a b : Char} : ∀ {xs : List Char} (ys : List Char),
    hasOcc a b xs = true → hasOcc a b (xs ++ ys) = true := by
  intro xs
  induction xs with
  | nil => intro ys h; cases h
  | cons c rest ih =>
    intro ys h
    rw [hasOcc_cons] at h
    rw [List.cons_append, hasOcc_cons]
    rcases Bool.or_eq_true_iff.mp h with h | h
    · simp only [decide_eq_true_eq] at h
      obtain ⟨h1, h2⟩ := h
      have : (rest ++ ys).head? = some b := by
        cases rest with
        | nil => cases h2
        | cons z zs => exact h2
      simp [h1, this]
    · rw [ih ys h, Bool.or_true]

theorem hasOcc_append_right {a b : Char} : ∀ (xs : List Char) {ys : List Char},
    hasOcc a b ys = true → hasOcc a b (xs ++ ys) = true := by
  intro xs
  induction xs with
  | nil => intro ys h; exact h
  | cons c rest ih =>
    intro ys h
    rw [List.cons_append, hasOcc_cons, ih h, Bool.or_true]

theorem noFlats_take {s : List Char} (n : Nat) (h : noFlats s = true) :
    noFlats (s.take n) = true := by
  unfold noFlats at h ⊢
  simp only [Bool.not_eq_true', Bool.or_eq_false_iff] at h ⊢
  obtain ⟨⟨⟨⟨hD, hE⟩, hG⟩, hA⟩, hB⟩ := h
  have key : ∀ a b : Char, hasOcc a b s = false → hasOcc a b (s.take n) = false := by
    intro a b hh
    by_contra hcon
    rw [Bool.not_eq_false] at hcon
    have := hasOcc_append_left (s.drop n) hcon
    rw [List.take_append_drop] at this
    rw [this] at hh
    cases hh
  exact ⟨⟨⟨⟨key _ _ hD, key _ _ hE⟩, key _ _ hG⟩, key _ _ hA⟩, key _ _ hB⟩

theorem noFlats_drop {s : List Char} (n : Nat) (h : noFlats s = true) :
    noFlats (s.drop n) = true := by
  unfold noFlats at h ⊢
  simp only [Bool.not_eq_true', Bool.or_eq_false_iff] at h ⊢
  obtain ⟨⟨⟨⟨hD, hE⟩, hG⟩, hA⟩, hB⟩ := h
  have key : ∀ a b : Char, hasOcc a b s = false → hasOcc a b (s.drop n) = false := by
    intro a b hh
    by_contra hcon
    rw [Bool.not_eq_false] at hcon
    have := hasOcc_append_right (s.take n) hcon
    rw [List.take_append_drop] at this
    rw [this] at hh
    cases hh
  exact ⟨⟨⟨⟨key _ _ hD, key _ _ hE⟩, key _ _ hG⟩, key _ _ hA⟩, key _ _ hB⟩

theorem splitRoot_shape : ∀ {l root suffix : List Char},
    splitRoot l = some (root, suffix) →
    (∃ r, root = [r] ∧ isRootLetter r = true) ∨
    (∃ r x, root = [r, x] ∧ isRootLetter r = true ∧ (x = '#' ∨ x = 'b')) := by
  intro l root suffix h
  cases l with
  | nil => cases h
  | cons r rest =>
    cases rest with
    | nil =>
      simp only [splitRoot] at h
      split at h
      · rename_i hrl
        injection h with h'
        injection h' with h1 _
        exact Or.inl ⟨r, h1.symm, hrl⟩
      · cases h
    | cons x rest2 =>
      simp only [splitRoot] at h
      split at h
      · rename_i hrl
        split at h
        · rename_i hx
          injection h with h'
          injection h' with h1 _
          exact Or.inr ⟨r, x, h1.symm, hrl, hx⟩
        · injection h with h'
          injection h' with h1 _
          exact Or.inl ⟨r, h1.symm, hrl⟩
      · cases h

theorem replace2_pair {a b y z r x : Char} (hr : r ≠ a) :
    replace2 a b y z [r, x] = [r, x] := by
  rw [replace2, if_neg (fun hc => hr hc.1), replace2]

theorem transpose_chord_zero (chord : List Char) :
    transpose_chord chord 0 = normalize_chord chord := by
  by_cases hall : chord.all isSpaceC
  · rw [transpose_chord_ws 0 hall]
    have hnb : ∀ x ∈ chord, x ≠ 'b' := by
      intro x hx hcon
      subst hcon
      have := List.all_eq_true.mp hall _ hx
      simp [isSpaceC] at this
    exact (normalize_chord_id (noFlats_of_no_b hnb)).symm
  · rw [Bool.not_eq_true] at hall
    cases hsp : splitRoot (normalize_chord chord) with
    | none => exact transpose_chord_none 0 hall hsp
    | some rs =>
      obtain ⟨root, suffix⟩ := rs
      rw [transpose_chord_some 0 hall hsp]
      rcases splitRoot_shape hsp with ⟨r, hroot, hrl⟩ | ⟨r, x, hroot, hrl, hx⟩
      · subst hroot
        have hb : rootNorm [r] = [r] := by
          refine if_neg ?_
          intro hcon
          rw [List.mem_singleton] at hcon
          subst hcon
          simp [isRootLetter] at hrl
        rw [hb]
        by_cases hN : ([r] : List Char) ∈ NOTES
        · rw [if_pos hN, getD_zero_shift hN]
          exact (splitRoot_eq hsp).symm
        · rw [if_neg hN]
      · subst hroot
        rcases hx with hx | hx
        · subst hx
          have hb : rootNorm [r, '#'] = [r, '#'] := by
            refine if_neg ?_
            intro hcon
            rcases List.mem_cons.mp hcon with hcon | hcon
            · subst hcon; simp [isRootLetter] at hrl
            · rw [List.mem_singleton] at hcon; cases hcon
          rw [hb]
          by_cases hN : ([r, '#'] : List Char) ∈ NOTES
          · rw [if_pos hN, getD_zero_shift hN]
            exact (splitRoot_eq hsp).symm
          · rw [if_neg hN]
        · subst hx
          have hocc : hasOcc r 'b' (normalize_chord chord) = true := by
            rw [splitRoot_eq hsp]
            simp [hasOcc]
          have hrne : r ≠ 'D' ∧ r ≠ 'E' ∧ r ≠ 'G' ∧ r ≠ 'A' ∧ r ≠ 'B' := by
            refine ⟨?_, ?_, ?_, ?_, ?_⟩ <;>
              (intro hcon; subst hcon;
               rw [hasOcc_normalize_false _ (by decide) chord] at hocc; cases hocc)
          have hnorm2 : normalize_chord [r, 'b'] = [r, 'b'] := by
            unfold normalize_chord
            rw [replace2_pair hrne.1, replace2_pair hrne.2.1, replace2_pair hrne.2.2.1,
              replace2_pair hrne.2.2.2.1, replace2_pair hrne.2.2.2.2]
          have hb : rootNorm [r, 'b'] = [r, 'b'] := by
            rw [rootNorm, if_pos (by simp), hnorm2]
          rw [hb]
          have hnotin : ([r, 'b'] : List Char) ∉ NOTES := by
            intro hmem
            have h2 := (show ∀ e ∈ NOTES, e.length = 1 ∨ e.getD 1 ' ' = '#' from by decide) _ hmem
            rcases h2 with h2 | h2
            · simp at h2
            · simp [List.getD] at h2
          rw [if_neg hnotin]

theorem renderZero : ∀ (f : Nat) (w : Bool) (s : List Char), s.length ≤ f →
    noFlats s = true → renderT 0 (scanSpans f w s) = s := by
  intro f
  induction f with
  | zero =>
    intro w s h _
    have : s = [] := List.eq_nil_of_length_eq_zero (Nat.le_zero.mp h)
    subst this
    rfl
  | succ f ih =>
    intro w s hlen hnf
    cases s with
    | nil => rfl
    | cons c rest =>
      simp only [scanSpans]
      cases htm : tryMatch w (c :: rest) with
      | some n =>
        obtain ⟨hn1, hn2, _⟩ := tryMatch_spec _ _ _ htm
        rw [renderT_cons_tok, transpose_chord_zero,
          normalize_chord_id (noFlats_take n hnf),
          ih _ _ (by simp only [List.length_drop, List.length_cons] at hlen ⊢; omega)
            (noFlats_drop n hnf)]
        exact List.take_append_drop n _
      | none =>
        rw [renderT_cons_lit, List.singleton_append,
          ih _ _ (by simp only [List.length_cons] at hlen; omega)
            (by simpa using noFlats_drop 1 hnf)]

theorem transpose_song_ok {original_key target_key : List Char} (song_text : List Char)
    (h1 : normalize_chord original_key ∈ NOTES) (h2 : normalize_chord target_key ∈ NOTES) :
    transpose_song song_text original_key target_key =
      Except.ok (transposeBody
        (interval (normalize_chord original_key) (normalize_chord target_key)) song_text) := by
  unfold transpose_song
  rw [if_pos ⟨h1, h2⟩]

theorem transpose_song_err {original_key target_key : List Char} (song_text : List Char)
    (h : ¬ (normalize_chord original_key ∈ NOTES ∧ normalize_chord target_key ∈ NOTES)) :
    transpose_song song_text original_key target_key = Except.error invalidMsg := by
  unfold transpose_song
  rw [if_neg h]

theorem interval_self (a : List Char) : interval a a = 0 := by
  unfold interval
  rw [sub_self, Int.zero_emod]

/-! ### Transfer of the scan along root-letter replacement

Two subject strings that agree except at positions where both carry a root
letter `A`-`G` are tokenized identically: the matcher only ever reads a
character through the predicates `isWordChar`, `isRootLetter`, `isDigitC`,
equality with `#`/`b`, and equality with the concrete suffix letters, and
root letters behave alike under all of them. -/

/-- Characters are related when they are equal or both are root letters. -/
def relCh (c c' : Char) : Prop :=
  c = c' ∨ (isRootLetter c = true ∧ isRootLetter c' = true)

theorem relCh_refl : ∀ l : List Char, List.Forall₂ relCh l l := by
  intro l
  induction l with
  | nil => exact List.Forall₂.nil
  | cons c rest ih => exact List.Forall₂.cons (Or.inl rfl) ih

theorem isRootLetter_word {c : Char} (h : isRootLetter c = true) :
    isWordChar c = true := by
  unfold isRootLetter at h
  unfold isWordChar
  simp only [decide_eq_true_eq] at h ⊢
  omega

theorem relCh_word {c c' : Char} (h : relCh c c') : isWordChar c = isWordChar c' := by
  rcases h with h | ⟨h1, h2⟩
  · rw [h]
  · rw [isRootLetter_word h1, isRootLetter_word h2]

theorem relCh_root {c c' : Char} (h : relCh c c') :
    isRootLetter c = isRootLetter c' := by
  rcases h with h | ⟨h1, h2⟩
  · rw [h]
  · rw [h1, h2]

theorem relCh_digit {c c' : Char} (h : relCh c c') : isDigitC c = isDigitC c' := by
  rcases h with h | ⟨h1, h2⟩
  · rw [h]
  · unfold isRootLetter at h1 h2
    unfold isDigitC
    simp only [decide_eq_true_eq] at h1 h2
    have e1 : ¬ (48 ≤ c.toNat ∧ c.toNat ≤ 57) := by omega
    have e2 : ¬ (48 ≤ c'.toNat ∧ c'.toNat ≤ 57) := by omega
    simp [e1, e2]

theorem relCh_eq_of_not_root {c c' x : Char} (h : relCh c c')
    (hx : isRootLetter x = false) : (c = x) = (c' = x) := by
  rcases h with h | ⟨h1, h2⟩
  · rw [h]
  · have e1 : c ≠ x := fun hc => by rw [hc] at h1; rw [h1] at hx; cases hx
    have e2 : c' ≠ x := fun hc => by rw [hc] at h2; rw [h2] at hx; cases hx
    simp [e1, e2]

theorem rel_drop : ∀ (n : Nat) {l l' : List Char}, List.Forall₂ relCh l l' →
    List.Forall₂ relCh (l.drop n) (l'.drop n) := by
  intro n
  induction n with
  | zero => intro l l' h; exact h
  | succ m ih =>
    intro l l' h
    cases h with
    | nil => exact List.Forall₂.nil
    | cons hr hrest => exact ih hrest

theorem rel_head_word {l l' : List Char} (h : List.Forall₂ relCh l l') :
    isWordOpt l.head? = isWordOpt l'.head? := by
  cases h with
  | nil => rfl
  | cons hr hrest =>
    simp only [List.head?_cons, isWordOpt]
    exact relCh_word hr

theorem rel_getLast_word : ∀ {l l' : List Char}, List.Forall₂ relCh l l' →
    isWordOpt l.getLast? = isWordOpt l'.getLast? := by
  intro l l' h
  induction h with
  | nil => rfl
  | cons hr hrest ih =>
    rename_i a b as bs
    cases hrest with
    | nil => simp only [List.getLast?_singleton, isWordOpt]; exact relCh_word hr
    | cons hr2 hrest2 =>
      rename_i a2 b2 as2 bs2
      rw [List.getLast?_cons_cons, List.getLast?_cons_cons]
      exact ih

theorem isPre_rel : ∀ (a l l' : List Char), (∀ x ∈ a, isRootLetter x = false) →
    List.Forall₂ relCh l l' → isPre a l = isPre a l' := by
  intro a
  induction a with
  | nil => intro l l' _ _; rfl
  | cons x a' ih =>
    intro l l' hx h
    cases h with
    | nil => rfl
    | cons hr hrest =>
      rename_i c c' l₂ l₂'
      have hiff : (c = x) = (c' = x) :=
        relCh_eq_of_not_root hr (hx x (List.mem_cons_self _ _))
      by_cases hxc : x = c
      · have hxc' : x = c' := (hiff ▸ hxc.symm).symm
        rw [isPre, isPre, if_pos hxc, if_pos hxc']
        exact ih _ _ (fun z hz => hx z (List.mem_cons_of_mem _ hz)) hrest
      · have hxc' : ¬ x = c' := by
          intro hh
          exact hxc (hiff.symm ▸ hh.symm).symm
        rw [isPre, isPre, if_neg hxc, if_neg hxc']

theorem starEnd_rel : ∀ (f : Nat) (w : Bool) {l l' : List Char},
    List.Forall₂ relCh l l' → starEnd f w l = starEnd f w l' := by
  intro f
  induction f with
  | zero => intro w l l' _; rfl
  | succ f ih =>
    intro w l l' h
    cases h with
    | nil => rfl
    | cons hr hrest =>
      rename_i c c' l₂ l₂'
      have hF : List.Forall₂ relCh (c :: l₂) (c' :: l₂') := List.Forall₂.cons hr hrest
      have e1 := isPre_rel (['m']) _ _ (by decide) hF
      have e2 := isPre_rel (['m', 'a', 'j']) _ _ (by decide) hF
      have e3 := isPre_rel (['m', 'i', 'n']) _ _ (by decide) hF
      have e4 := isPre_rel (['d', 'i', 'm']) _ _ (by decide) hF
      have e5 := isPre_rel (['a', 'u', 'g']) _ _ (by decide) hF
      have e6 := isPre_rel (['s', 'u', 's']) _ _ (by decide) hF
      have e7 := isPre_rel (['a', 'd', 'd']) _ _ (by decide) hF
      have d1 := ih true (rel_drop 1 hF)
      have d3 := ih true (rel_drop 3 hF)
      have ddig := relCh_digit hr
      have drec := ih true hrest
      have dbnd := rel_head_word hF
      simp only [starEnd]
      rw [e1, e2, e3, e4, e5, e6, e7, d1, d3, ddig, drec, dbnd]

theorem tryMatch_rel : ∀ (w : Bool) {l l' : List Char},
    List.Forall₂ relCh l l' → tryMatch w l = tryMatch w l' := by
  intro w l l' h
  cases h with
  | nil => rfl
  | cons hr hrest =>
    rename_i c c' l₂ l₂'
    simp only [tryMatch]
    rw [relCh_root hr]
    cases hrest with
    | nil => rfl
    | cons hr2 hrest2 =>
      rename_i x x' l₃ l₃'
      have hx : ((x = '#' ∨ x = 'b')) = ((x' = '#' ∨ x' = 'b')) := by
        rw [relCh_eq_of_not_root hr2 (by decide : isRootLetter '#' = false),
          relCh_eq_of_not_root hr2 (by decide : isRootLetter 'b' = false)]
      have hlen3 : l₃.length = l₃'.length := List.Forall₂.length_eq hrest2
      have hwx : isWordChar x = isWordChar x' := relCh_word hr2
      have hse3 : starEnd (l₃.length + 1) (isWordChar x) l₃ =
          starEnd (l₃'.length + 1) (isWordChar x') l₃' := by
        rw [hlen3, hwx]
        exact starEnd_rel _ _ hrest2
      have hlen2 : (x :: l₃).length = (x' :: l₃').length := by
        simp [hlen3]
      have hse2 : starEnd ((x :: l₃).length + 1) true (x :: l₃) =
          starEnd ((x' :: l₃').length + 1) true (x' :: l₃') := by
        rw [hlen2]
        exact starEnd_rel _ _ (List.Forall₂.cons hr2 hrest2)
      by_cases hcond : w = false ∧ isRootLetter c' = true
      · rw [if_pos hcond, if_pos hcond]
        show (if x = '#' ∨ x = 'b' then
            match starEnd (l₃.length + 1) (isWordChar x) l₃ with
            | some k => some (2 + k)
            | none => Option.map (fun k => 1 + k)
                (starEnd ((x :: l₃).length + 1) true (x :: l₃))
          else Option.map (fun k => 1 + k)
            (starEnd ((x :: l₃).length + 1) true (x :: l₃))) =
          (if x' = '#' ∨ x' = 'b' then
            match starEnd (l₃'.length + 1) (isWordChar x') l₃' with
            | some k => some (2 + k)
            | none => Option.map (fun k => 1 + k)
                (starEnd ((x' :: l₃').length + 1) true (x' :: l₃'))
          else Option.map (fun k => 1 + k)
            (starEnd ((x' :: l₃').length + 1) true (x' :: l₃')))
        by_cases hacc : x = '#' ∨ x = 'b'
        · have hacc' : x' = '#' ∨ x' = 'b' := hx ▸ hacc
          rw [if_pos hacc, if_pos hacc', hse3, hse2]
        · have hacc' : ¬ (x' = '#' ∨ x' = 'b') := fun hh => hacc (hx.symm ▸ hh)
          rw [if_neg hacc, if_neg hacc', hse2]
      · rw [if_neg hcond, if_neg hcond]

/-! ### Evaluation of `transpose_chord` on tokens with natural roots -/

theorem naturalsL_root {c : Char} (h : c ∈ naturalsL) : isRootLetter c = true := by
  simp only [naturalsL, List.mem_cons, List.not_mem_nil, or_false] at h
  rcases h with h | h | h | h | h | h | h <;> (subst h; decide)

theorem naturalsL_singleton_mem {c : Char} (h : c ∈ naturalsL) :
    ([c] : List Char) ∈ NOTES := by
  simp only [naturalsL, List.mem_cons, List.not_mem_nil, or_false] at h
  rcases h with h | h | h | h | h | h | h <;> (subst h; decide)

theorem naturalsL_ne_b {c : Char} (h : c ∈ naturalsL) : c ≠ 'b' := by
  simp only [naturalsL, List.mem_cons, List.not_mem_nil, or_false] at h
  rcases h with h | h | h | h | h | h | h <;> (subst h; decide)

theorem naturalsL_nonws {c : Char} (h : c ∈ naturalsL) : isSpaceC c = false := by
  simp only [naturalsL, List.mem_cons, List.not_mem_nil, or_false] at h
  rcases h with h | h | h | h | h | h | h <;> (subst h; decide)

theorem isAtomChar_ne_b {c : Char} (h : isAtomChar c = true) : c ≠ 'b' := by
  intro hcon
  subst hcon
  revert h
  decide

theorem isAtomChar_ne_hash {c : Char} (h : isAtomChar c = true) : c ≠ '#' := by
  intro hcon
  subst hcon
  revert h
  decide

theorem transpose_chord_natRoot {c : Char} {rest : List Char} (st : Int)
    (hc : c ∈ naturalsL) (hrest : rest.all isAtomChar = true) :
    transpose_chord (c :: rest) st = shiftC st c ++ rest := by
  have hall : (c :: rest).all isSpaceC = false := by
    simp [List.all_cons, naturalsL_nonws hc]
  have hnb : ∀ x ∈ (c :: rest), x ≠ 'b' := by
    intro x hx
    rcases List.mem_cons.mp hx with hx | hx
    · subst hx; exact naturalsL_ne_b hc
    · exact isAtomChar_ne_b (List.all_eq_true.mp hrest x hx)
  have hnorm : normalize_chord (c :: rest) = c :: rest :=
    normalize_chord_id (noFlats_of_no_b hnb)
  have hsp : splitRoot (normalize_chord (c :: rest)) = some ([c], rest) := by
    rw [hnorm]
    cases rest with
    | nil => simp [splitRoot, naturalsL_root hc]
    | cons x rest2 =>
      have hx1 : x ≠ '#' :=
        isAtomChar_ne_hash (List.all_eq_true.mp hrest x (List.mem_cons_self _ _))
      have hx2 : x ≠ 'b' :=
        isAtomChar_ne_b (List.all_eq_true.mp hrest x (List.mem_cons_self _ _))
      simp [splitRoot, naturalsL_root hc, hx1, hx2]
  rw [transpose_chord_some st hall hsp]
  have hroot2 : rootNorm [c] = [c] := by
    refine if_neg ?_
    intro hcon
    rw [List.mem_singleton] at hcon
    exact naturalsL_ne_b hc hcon.symm
  rw [hroot2, if_pos (naturalsL_singleton_mem hc)]
  rfl

theorem shiftC_natural {st : Int} {c : Char} (h : (shiftC st c).length = 1) :
    ∃ c', shiftC st c = [c'] ∧ c' ∈ naturalsL := by
  have hmem : shiftC st c ∈ NOTES := by
    unfold shiftC
    exact (show ∀ k < 12, NOTES.getD k [] ∈ NOTES from by decide) _ (emod12_toNat_lt _)
  have hkey := (show ∀ e ∈ NOTES, e.length = 1 →
    (e.headD ' ' ∈ naturalsL ∧ e = [e.headD ' ']) from by decide) _ hmem h
  exact ⟨(shiftC st c).headD ' ', hkey.2, hkey.1⟩

theorem shiftC_back (i1 i2 : Int) (h1 : 0 ≤ i1) (h1' : i1 < 12)
    (h2 : 0 ≤ i2) (h2' : i2 < 12) {c c' : Char} (hc : c ∈ naturalsL)
    (heq : shiftC ((i2 - i1) % 12) c = [c']) :
    shiftC ((i1 - i2) % 12) c' = [c] := by
  have hcm : ([c] : List Char) ∈ NOTES := naturalsL_singleton_mem hc
  have hlt : noteIdx [c] < 12 := noteIdx_lt hcm
  have hj : (((noteIdx [c] : Int) + (i2 - i1) % 12) % 12).toNat < 12 := emod12_toNat_lt _
  have hidx : noteIdx [c'] = (((noteIdx [c] : Int) + (i2 - i1) % 12) % 12).toNat := by
    have hkey := (show ∀ k < 12, noteIdx (NOTES.getD k []) = k from by decide) _ hj
    rw [← heq]
    unfold shiftC
    exact hkey
  unfold shiftC
  have harith : (((noteIdx [c'] : Int) + (i1 - i2) % 12) % 12).toNat = noteIdx [c] := by
    rw [hidx]
    omega
  rw [harith, getD_noteIdx hcm]

theorem rel_append : ∀ {l₁ l₂ l₁' l₂' : List Char},
    List.Forall₂ relCh l₁ l₁' → List.Forall₂ relCh l₂ l₂' →
    List.Forall₂ relCh (l₁ ++ l₂) (l₁' ++ l₂') := by
  intro l₁ l₂ l₁' l₂' h1 h2
  induction h1 with
  | nil => exact h2
  | cons hr hrest ih => exact List.Forall₂.cons hr ih

/-! ### The round trip on texts whose tokens keep natural roots -/

theorem scanSpans_cons_some {f : Nat} {w : Bool} {c : Char} {rest : List Char}
    {n : Nat} (h : tryMatch w (c :: rest) = some n) :
    scanSpans (f + 1) w (c :: rest) =
      (true, (c :: rest).take n) ::
        scanSpans f (isWordOpt ((c :: rest).take n).getLast?) ((c :: rest).drop n) := by
  simp only [scanSpans, h]

theorem scanSpans_cons_none {f : Nat} {w : Bool} {c : Char} {rest : List Char}
    (h : tryMatch w (c :: rest) = none) :
    scanSpans (f + 1) w (c :: rest) =
      (false, [c]) :: scanSpans f (isWordChar c) rest := by
  simp only [scanSpans, h]

theorem roundtrip_render : ∀ (f : Nat) (w : Bool) (s : List Char) (st st' : Int),
    s.length ≤ f →
    (∀ c c' : Char, c ∈ naturalsL → shiftC st c = [c'] → shiftC st' c' = [c]) →
    (∀ sp ∈ scanSpans f w s, sp.1 = true → natRoot st sp.2 = true) →
    List.Forall₂ relCh s (renderT st (scanSpans f w s)) ∧
    renderT st' (scanSpans f w (renderT st (scanSpans f w s))) = s := by
  intro f
  induction f with
  | zero =>
    intro w s st st' hlen _ _
    have : s = [] := List.eq_nil_of_length_eq_zero (Nat.le_zero.mp hlen)
    subst this
    exact ⟨List.Forall₂.nil, rfl⟩
  | succ f ih =>
    intro w s st st' hlen hback hg
    cases s with
    | nil => exact ⟨List.Forall₂.nil, rfl⟩
    | cons c rest =>
      cases htm : tryMatch w (c :: rest) with
      | some n =>
        obtain ⟨hn1, hn2, _⟩ := tryMatch_spec _ _ _ htm
        cases n with
        | zero => omega
        | succ m =>
          have hml : m ≤ rest.length := by
            simp only [List.length_cons] at hn2
            omega
          have hscan : scanSpans (f + 1) w (c :: rest) =
              (true, c :: rest.take m) ::
                scanSpans f (isWordOpt ((c :: rest.take m)).getLast?) (rest.drop m) := by
            rw [scanSpans_cons_some htm, List.take_succ_cons, List.drop_succ_cons]
          have hgtok : natRoot st (c :: rest.take m) = true := by
            refine hg (true, c :: rest.take m) ?_ rfl
            rw [hscan]
            exact List.mem_cons_self _ _
          have hgtail : ∀ sp ∈ scanSpans f (isWordOpt ((c :: rest.take m)).getLast?)
              (rest.drop m), sp.1 = true → natRoot st sp.2 = true := by
            intro sp hsp ht
            refine hg sp ?_ ht
            rw [hscan]
            exact List.mem_cons_of_mem _ hsp
          simp only [natRoot, Bool.and_eq_true, decide_eq_true_eq] at hgtok
          obtain ⟨⟨hcN, hallA⟩, hlen1⟩ := hgtok
          obtain ⟨c', hc'eq, hc'N⟩ := shiftC_natural hlen1
          have htc : transpose_chord (c :: rest.take m) st = c' :: rest.take m := by
            rw [transpose_chord_natRoot st hcN hallA, hc'eq]
            rfl
          have hrel_tok : List.Forall₂ relCh (c :: rest.take m) (c' :: rest.take m) :=
            List.Forall₂.cons
              (Or.inr ⟨naturalsL_root hcN, naturalsL_root hc'N⟩)
              (relCh_refl _)
          obtain ⟨ih1, ih2⟩ := ih (isWordOpt ((c :: rest.take m)).getLast?)
            (rest.drop m) st st'
            (by simp only [List.length_drop, List.length_cons] at hlen ⊢; omega)
            hback hgtail
          set w₂ := isWordOpt ((c :: rest.take m)).getLast? with hw₂
          set imageRest := renderT st (scanSpans f w₂ (rest.drop m)) with hIR
          have hrender : renderT st (scanSpans (f + 1) w (c :: rest)) =
              (c' :: rest.take m) ++ imageRest := by
            rw [hscan, renderT_cons_tok, htc]
          have hsplit : c :: rest = (c :: rest.take m) ++ rest.drop m := by
            rw [List.cons_append, List.take_append_drop]
          have hrel : List.Forall₂ relCh (c :: rest)
              (renderT st (scanSpans (f + 1) w (c :: rest))) := by
            rw [hrender]
            conv_lhs => rw [hsplit]
            exact rel_append hrel_tok ih1
          refine ⟨hrel, ?_⟩
          rw [hrender]
          have hrel2 : List.Forall₂ relCh (c :: rest) ((c' :: rest.take m) ++ imageRest) := by
            conv_lhs => rw [hsplit]
            exact rel_append hrel_tok ih1
          have htm2 : tryMatch w (c' :: (rest.take m ++ imageRest)) = some (m + 1) := by
            rw [← List.cons_append]
            exact (tryMatch_rel w hrel2).symm.trans htm
          have hlen_take : (rest.take m).length = m := by
            simp only [List.length_take]
            omega
          have hw₂'' : isWordOpt ((c' :: rest.take m)).getLast? = w₂ := by
            rw [hw₂]
            exact (rel_getLast_word hrel_tok).symm
          have htakeX : List.take (m + 1) (c' :: (rest.take m ++ imageRest)) =
              c' :: rest.take m := by
            rw [List.take_succ_cons]
            congr 1
            exact List.take_left' hlen_take
          have hdropX : List.drop (m + 1) (c' :: (rest.take m ++ imageRest)) =
              imageRest := by
            rw [List.drop_succ_cons]
            exact List.drop_left' hlen_take
          have hscan2 : scanSpans (f + 1) w (c' :: (rest.take m ++ imageRest)) =
              (true, c' :: rest.take m) :: scanSpans f w₂ imageRest := by
            rw [scanSpans_cons_some htm2, htakeX, hdropX, hw₂'']
          rw [List.cons_append, hscan2, renderT_cons_tok,
            transpose_chord_natRoot st' hc'N hallA, hback c c' hcN hc'eq, ih2]
          rw [List.singleton_append, List.cons_append, List.take_append_drop]
      | none =>
        have hscan := scanSpans_cons_none (f := f) htm
        have hgtail : ∀ sp ∈ scanSpans f (isWordChar c) rest, sp.1 = true →
            natRoot st sp.2 = true := by
          intro sp hsp ht
          refine hg sp ?_ ht
          rw [hscan]
          exact List.mem_cons_of_mem _ hsp
        obtain ⟨ih1, ih2⟩ := ih (isWordChar c) rest st st'
          (by simp only [List.length_cons] at hlen; omega) hback hgtail
        set imageRest := renderT st (scanSpans f (isWordChar c) rest) with hIR
        have hrender : renderT st (scanSpans (f + 1) w (c :: rest)) = c :: imageRest := by
          rw [hscan, renderT_cons_lit, List.singleton_append]
        have hrel : List.Forall₂ relCh (c :: rest) (c :: imageRest) :=
          List.Forall₂.cons (Or.inl rfl) ih1
        refine ⟨by rw [hrender]; exact hrel, ?_⟩
        rw [hrender]
        have htm2 : tryMatch w (c :: imageRest) = none :=
          (tryMatch_rel w hrel).symm.trans htm
        rw [scanSpans_cons_none htm2, renderT_cons_lit, List.singleton_append, ih2]

/-! ### Claim theorems -/

/-- Claim C1, counterexample: `transpose("Bb7 Eb", "C", "C")` is not the
identity — the code rewrites flat spellings to sharps even at a zero
interval, returning `"A#7 D#"`. -/
theorem c1_counterexample :
    transpose_song ("Bb7 Eb".data) ("C".data) ("C".data) =
      Except.ok ("A#7 D#".data) ∧ ("A#7 D#".data) ≠ ("Bb7 Eb".data) :=
  ⟨by decide, by decide⟩

/-- Claim C1 (amended): transposition by a zero interval
(`transpose(t, k, k)` for a valid key `k`) returns `t` unchanged provided
the text contains no flat spelling (no occurrence of Db, Eb, Gb, Ab or Bb);
flat spellings inside chord tokens are rewritten to their sharp
equivalents even at a zero interval. -/
theorem c1_zero_interval_identity (t k : List Char)
    (hk : normalize_chord k ∈ NOTES) (ht : noFlats t = true) :
    transpose_song t k k = Except.ok t := by
  rw [transpose_song_ok t hk hk, interval_self]
  exact congrArg Except.ok (renderZero _ _ _ (le_refl _) ht)

/-- Witness for C1 (amended) at a concrete flat-free input. -/
theorem c1_zero_interval_identity_witness :
    transpose_song ("B7 E".data) ("C".data) ("C".data) = Except.ok ("B7 E".data) :=
  c1_zero_interval_identity ("B7 E".data) ("C".data) (by decide) (by decide)

/-- Claim C2, counterexample: the round trip fails in general. Transposing
`"E"` from C to D gives `"F#"`; transposing that back from D to C
re-tokenizes `"F#"` as the root `"F"` followed by a literal `"#"` (there is
no word boundary after a trailing `#`), producing `"D##"`, not `"E"`. -/
theorem c2_counterexample :
    transpose_song ("E".data) ("C".data) ("D".data) = Except.ok ("F#".data) ∧
    transpose_song ("F#".data) ("D".data) ("C".data) = Except.ok ("D##".data) ∧
    ("D##".data) ≠ ("E".data) :=
  ⟨by decide, by decide, by decide⟩

/-- Claim C2 (amended): for valid keys the round trip
`transpose(transpose(t, k1, k2), k2, k1) = t` holds provided every chord
token recognized in `t` has a single-letter natural root whose image under
the transposition interval is again a natural (unsharped) root; when a
sharp or flat root is involved the round trip can fail (see the
counterexample). -/
theorem c2_roundtrip (t k1 k2 : List Char)
    (h1 : normalize_chord k1 ∈ NOTES) (h2 : normalize_chord k2 ∈ NOTES)
    (hg : ∀ sp ∈ scanSpans t.length false t, sp.1 = true →
      natRoot (interval (normalize_chord k1) (normalize_chord k2)) sp.2 = true) :
    (transpose_song t k1 k2).bind (fun u => transpose_song u k2 k1) =
      Except.ok t := by
  have hi1 : noteIdx (normalize_chord k1) < 12 := noteIdx_lt h1
  have hi2 : noteIdx (normalize_chord k2) < 12 := noteIdx_lt h2
  have hback : ∀ c c' : Char, c ∈ naturalsL →
      shiftC (interval (normalize_chord k1) (normalize_chord k2)) c = [c'] →
      shiftC (interval (normalize_chord k2) (normalize_chord k1)) c' = [c] := by
    intro c c' hc heq
    exact shiftC_back ((noteIdx (normalize_chord k1) : Int))
      ((noteIdx (normalize_chord k2) : Int))
      (Int.natCast_nonneg _) (by exact_mod_cast hi1)
      (Int.natCast_nonneg _) (by exact_mod_cast hi2) hc heq
  obtain ⟨hrel, hrt⟩ := roundtrip_render t.length false t
    (interval (normalize_chord k1) (normalize_chord k2))
    (interval (normalize_chord k2) (normalize_chord k1))
    (le_refl _) hback hg
  rw [transpose_song_ok t h1 h2]
  show transpose_song
    (transposeBody (interval (normalize_chord k1) (normalize_chord k2)) t) k2 k1 =
    Except.ok t
  rw [transpose_song_ok _ h2 h1]
  congr 1
  have hlen_img : (renderT (interval (normalize_chord k1) (normalize_chord k2))
      (scanSpans t.length false t)).length = t.length :=
    (List.Forall₂.length_eq hrel).symm
  show renderT (interval (normalize_chord k2) (normalize_chord k1))
      (scanSpans (renderT (interval (normalize_chord k1) (normalize_chord k2))
          (scanSpans t.length false t)).length false
        (renderT (interval (normalize_chord k1) (normalize_chord k2))
          (scanSpans t.length false t))) = t
  rw [hlen_img]
  exact hrt

/-- Witness for C2 (amended) at the natural-rooted text "C Am", C to D. -/
theorem c2_roundtrip_witness :
    (transpose_song ("C Am".data) ("C".data) ("D".data)).bind
      (fun u => transpose_song u ("D".data) ("C".data)) =
      Except.ok ("C Am".data) :=
  c2_roundtrip ("C Am".data) ("C".data) ("D".data) (by decide) (by decide) (by decide)

/-- Claim C3: when both keys normalize to valid pitches, `transpose_song`
never fails, whatever the text: it returns `Except.ok` of the rewritten
scan for every input text, and the scan decomposes the text into spans whose
concatenation is exactly the text (unrecognized content is carried through
the scan rather than rejected). -/
theorem c3_error_scoping (t k1 k2 : List Char)
    (h1 : normalize_chord k1 ∈ NOTES) (h2 : normalize_chord k2 ∈ NOTES) :
    transpose_song t k1 k2 =
      Except.ok (transposeBody (interval (normalize_chord k1) (normalize_chord k2)) t) ∧
    ((scanSpans t.length false t).map Prod.snd).flatten = t :=
  ⟨transpose_song_ok t h1 h2, scanSpans_flatten _ _ _ (Nat.le_refl _)⟩

/-- Witness for C3 at a concrete chord-free text. -/
theorem c3_error_scoping_witness :
    transpose_song ("hello world".data) ("C".data) ("D".data) =
      Except.ok (transposeBody
        (interval (normalize_chord ("C".data)) (normalize_chord ("D".data)))
        ("hello world".data)) ∧
    ((scanSpans (("hello world".data)).length false ("hello world".data)).map
        Prod.snd).flatten = ("hello world".data) :=
  c3_error_scoping ("hello world".data) ("C".data) ("D".data) (by decide) (by decide)

/-- Claim C4: each of the 17 valid spellings normalizes into the 12
canonical names and is accepted by the key validation; the five flat
aliases normalize identically to their sharp equivalents; and every
spelling that does not land in the canonical names after flat-to-sharp
substitution is rejected with the `InvalidPitch` error. -/
theorem c4_normalize :
    (∀ p ∈ valid17, normalize_chord p ∈ NOTES ∧
      normalizeKey p = Except.ok (normalize_chord p)) ∧
    (normalizeKey (("Db").data) = normalizeKey (("C#").data) ∧
     normalizeKey (("Eb").data) = normalizeKey (("D#").data) ∧
     normalizeKey (("Gb").data) = normalizeKey (("F#").data) ∧
     normalizeKey (("Ab").data) = normalizeKey (("G#").data) ∧
     normalizeKey (("Bb").data) = normalizeKey (("A#").data)) ∧
    (∀ s : List Char, normalize_chord s ∉ NOTES →
      normalizeKey s = Except.error invalidMsg) := by
  refine ⟨by decide, by decide, ?_⟩
  intro s h
  unfold normalizeKey
  rw [if_neg h]

/-- Witness for C4's rejection clause at the invalid spelling `H`. -/
theorem c4_normalize_witness :
    normalize_chord ("H".data) ∉ NOTES ∧
    normalizeKey ("H".data) = Except.error invalidMsg :=
  ⟨by decide, c4_normalize.2.2 ("H".data) (by decide)⟩

/-- Claim C5: the interval between two pitches is
`(index(to) - index(from)) mod 12`, always in `[0, 11]`, and the interval
from a pitch to itself is `0`. -/
theorem c5_interval (a b : List Char) (ha : a ∈ NOTES) (hb : b ∈ NOTES) :
    interval a b = ((noteIdx b : Int) - (noteIdx a : Int)) % 12 ∧
    0 ≤ interval a b ∧ interval a b < 12 ∧ interval a a = 0 :=
  ⟨rfl, emod12_nonneg _, emod12_lt _, interval_self a⟩

/-- Witness for C5 at the pitches C and D. -/
theorem c5_interval_witness :
    interval ("C".data) ("D".data) =
      ((noteIdx ("D".data) : Int) - (noteIdx ("C".data) : Int)) % 12 ∧
    0 ≤ interval ("C".data) ("D".data) ∧ interval ("C".data) ("D".data) < 12 ∧
    interval ("C".data) ("C".data) = 0 :=
  c5_interval ("C".data) ("D".data) (by decide) (by decide)

/-- Claim C6: for valid keys the transposition succeeds and preserves the
count of line breaks and the count of whitespace-separated words; the
output is the concatenation of the scanned spans with only chord spans
rewritten, and the spans concatenate back to the input, so every character
outside a matched chord token is reproduced verbatim and in order. -/
theorem c6_structure (t k1 k2 : List Char)
    (h1 : normalize_chord k1 ∈ NOTES) (h2 : normalize_chord k2 ∈ NOTES) :
    ∃ out, transpose_song t k1 k2 = Except.ok out ∧
      countNL out = countNL t ∧ wordCount out = wordCount t ∧
      out = renderT (interval (normalize_chord k1) (normalize_chord k2))
              (scanSpans t.length false t) ∧
      ((scanSpans t.length false t).map Prod.snd).flatten = t := by
  refine ⟨transposeBody (interval (normalize_chord k1) (normalize_chord k2)) t,
    transpose_song_ok t h1 h2, ?_, ?_, rfl, scanSpans_flatten _ _ _ (Nat.le_refl _)⟩
  · exact (renderT_counts _ _ _ _ (le_refl _)).1
  · exact (renderT_counts _ _ _ _ (le_refl _)).2 false

/-- Witness for C6 at the concrete song of the specification. -/
theorem c6_structure_witness :
    ∃ out, transpose_song ("C        Am\nEsta es mi canción\nF         G\n".data)
        ("C".data) ("D".data) = Except.ok out ∧
      countNL out = countNL ("C        Am\nEsta es mi canción\nF         G\n".data) ∧
      wordCount out = wordCount ("C        Am\nEsta es mi canción\nF         G\n".data) ∧
      out = renderT (interval (normalize_chord ("C".data)) (normalize_chord ("D".data)))
              (scanSpans (("C        Am\nEsta es mi canción\nF         G\n".data)).length
                false ("C        Am\nEsta es mi canción\nF         G\n".data)) ∧
      ((scanSpans (("C        Am\nEsta es mi canción\nF         G\n".data)).length
          false ("C        Am\nEsta es mi canción\nF         G\n".data)).map
        Prod.snd).flatten = ("C        Am\nEsta es mi canción\nF         G\n".data) :=
  c6_structure _ ("C".data) ("D".data) (by decide) (by decide)

/-- Claim C7, counterexample: the failure value is one constant
`ValueError("Tonalidad inválida")` whichever key is invalid — the error for
`("H", "C")` equals the error for `("C", "H")`, so it cannot identify which
of the two keys failed to normalize. -/
theorem c7_counterexample :
    transpose_song ("text".data) ("H".data) ("C".data) = Except.error invalidMsg ∧
    transpose_song ("text".data) ("C".data) ("H".data) = Except.error invalidMsg ∧
    transpose_song ("text".data) ("H".data) ("C".data) =
      transpose_song ("text".data) ("C".data) ("H".data) :=
  ⟨by decide, by decide, by decide⟩

/-- Claim C7 (amended): when either key fails to normalize the operation
fails with the single constant `ValueError` message (which does not say
which key was at fault), and no transposition of the text is attempted —
the result carries no transposed text. -/
theorem c7_invalid_key_error (t k1 k2 : List Char)
    (h : normalize_chord k1 ∉ NOTES ∨ normalize_chord k2 ∉ NOTES) :
    transpose_song t k1 k2 = Except.error invalidMsg := by
  refine transpose_song_err t ?_
  intro hcon
  rcases h with h | h
  · exact h hcon.1
  · exact h hcon.2

/-- Witness for C7 (amended) at the invalid original key `H`. -/
theorem c7_invalid_key_error_witness :
    transpose_song ("text".data) ("H".data) ("C".data) = Except.error invalidMsg :=
  c7_invalid_key_error ("text".data) ("H".data) ("C".data) (Or.inl (by decide))

/-- Claim C8: the two concrete scenarios of the specification, evaluated on
the embedded code: the Spanish song transposed from C to D, and
`"Gm7 to Dsus4"` transposed from G to A. -/
theorem c8_scenarios :
    transpose_song ("C        Am\nEsta es mi canción\nF         G\n".data)
      ("C".data) ("D".data) =
      Except.ok ("D        Bm\nEsta es mi canción\nG         A\n".data) ∧
    transpose_song ("Gm7 to Dsus4".data) ("G".data) ("A".data) =
      Except.ok ("Am7 to Esus4".data) :=
  ⟨by decide, by decide⟩

/-- Claim C9: flat-to-sharp normalization is idempotent — after one pass of
the five sequential replacements no flat spelling remains, so a second pass
changes nothing. -/
theorem c9_normalize_idem (s : List Char) :
    normalize_chord (normalize_chord s) = normalize_chord s ∧
    noFlats (normalize_chord s) = true :=
  ⟨normalize_chord_id (noFlats_normalize s), noFlats_normalize s⟩

/-- Claim C10, counterexample: `transpose_chord` does not always return its
input unchanged when the string does not start with a root letter — the
whole string is flat-normalized first, so `transpose_chord("xDb", 0)`
returns `"xC#"`. -/
theorem c10_counterexample :
    transpose_chord ("xDb".data) 0 = ("xC#".data) ∧ ("xC#".data) ≠ ("xDb".data) :=
  ⟨by decide, by decide⟩

/-- Claim C10 (amended): `transpose_chord` is total; empty or
whitespace-only inputs are returned unchanged; when the flat-normalized
chord has no `[A-G][#b]?` root, or its root is not canonical, the function
returns the flat-normalized input — which equals the input exactly when the
input contains no flat spelling. -/
theorem c10_totality (chord : List Char) (st : Int) :
    (chord.all isSpaceC = true → transpose_chord chord st = chord) ∧
    (chord.all isSpaceC = false → splitRoot (normalize_chord chord) = none →
      transpose_chord chord st = normalize_chord chord) ∧
    (∀ root suffix : List Char, chord.all isSpaceC = false →
      splitRoot (normalize_chord chord) = some (root, suffix) →
      rootNorm root ∉ NOTES → transpose_chord chord st = normalize_chord chord) ∧
    (noFlats chord = true → splitRoot chord = none →
      transpose_chord chord st = chord) := by
  refine ⟨fun h => transpose_chord_ws st h, fun h1 h2 => transpose_chord_none st h1 h2,
    ?_, ?_⟩
  · intro root suffix h1 h2 h3
    rw [transpose_chord_some st h1 h2, if_neg h3]
  · intro hnf hsp
    by_cases hall : chord.all isSpaceC
    · exact transpose_chord_ws st hall
    · rw [Bool.not_eq_true] at hall
      rw [transpose_chord_none st hall (by rw [normalize_chord_id hnf]; exact hsp)]
      exact normalize_chord_id hnf

/-- Witness for C10 (amended) at whitespace-only and rootless inputs. -/
theorem c10_totality_witness :
    transpose_chord ("   ".data) 5 = ("   ".data) ∧
    transpose_chord ("hello".data) 5 = ("hello".data) :=
  ⟨(c10_totality ("   ".data) 5).1 (by decide),
   (c10_totality ("hello".data) 5).2.2.2 (by decide) (by decide)⟩

end TMA
